import Mathlib

/-!
Shallow embedding of the network-statistics tools `pingstats.py` and
`trstats.py`.  Strings are processed as `List Char`; Python `float`
values are modelled as exact rationals (`ℚ`); code that can raise a
Python exception is modelled with `Except String`.

The Python numeric-literal grammar is modelled for the forms that the
tools' tokens can take: an optional sign, a decimal mantissa with an
optional fractional part, and an optional decimal exponent.
-/

/-- Python whitespace characters, as used by `str.split()` / `str.strip()`. -/
def isWs (c : Char) : Bool :=
  c = ' ' || c = '\t' || c = '\n' || c = '\r' || c = '\x0b' || c = '\x0c'

/-- Python `str.strip()`: drop leading and trailing whitespace. -/
def stripWs (cs : List Char) : List Char :=
  ((cs.dropWhile isWs).reverse.dropWhile isWs).reverse

/-- Python `str.startswith(pat)` on character lists (`startsWithL pat s`). -/
def startsWithL : List Char → List Char → Bool
  | [], _ => true
  | _ :: _, [] => false
  | p :: ps, c :: cs => p == c && startsWithL ps cs

/-- Python `pat in s` substring test on character lists. -/
def containsTok (pat : List Char) : List Char → Bool
  | [] => pat.isEmpty
  | c :: cs => startsWithL pat (c :: cs) || containsTok pat cs

/-- One step of the right fold implementing whitespace splitting. -/
def splitWsF (c : Char) (st : List (List Char) × List Char) :
    List (List Char) × List Char :=
  if isWs c then (if st.2.isEmpty then st else (st.2 :: st.1, []))
  else (st.1, c :: st.2)

/-- Python `str.split()` with no argument: split on runs of whitespace,
with no empty tokens. -/
def pySplit (cs : List Char) : List (List Char) :=
  let st := cs.foldr splitWsF ([], [])
  if st.2.isEmpty then st.1 else st.2 :: st.1

/-- Helper for `pyLines`: accumulates the current line (reversed). -/
def pyLinesAux : List Char → List Char → List (List Char)
  | cur, [] => [cur.reverse]
  | cur, '\n' :: [] => [cur.reverse]
  | cur, '\n' :: rest => cur.reverse :: pyLinesAux [] rest
  | cur, c :: rest => pyLinesAux (c :: cur) rest

/-- Python `str.splitlines()` restricted to `'\n'` separators: a final
newline does not produce a trailing empty line. -/
def pyLines (cs : List Char) : List (List Char) :=
  if cs.isEmpty then [] else pyLinesAux [] cs

/-- Value of one decimal digit character (`0` on non-digits, which the
parsers rule out before calling). -/
def digitVal (c : Char) : ℕ :=
  if c = '1' then 1 else if c = '2' then 2 else if c = '3' then 3
  else if c = '4' then 4 else if c = '5' then 5 else if c = '6' then 6
  else if c = '7' then 7 else if c = '8' then 8 else if c = '9' then 9 else 0

/-- Numeric value of a string of decimal digits. -/
def digitsVal (cs : List Char) : ℕ :=
  cs.foldl (fun a c => 10 * a + digitVal c) 0

/-- All characters are decimal digits and there is at least one. -/
def allDigits (cs : List Char) : Bool :=
  !cs.isEmpty && cs.all Char.isDigit

/-- Python `int(s)`: optional surrounding whitespace, optional sign,
then a non-empty digit string; `none` models the `ValueError`. -/
def pyInt? (s : List Char) : Option ℤ :=
  match stripWs s with
  | '+' :: ds => if allDigits ds then some (digitsVal ds) else none
  | '-' :: ds => if allDigits ds then some (-(digitsVal ds : ℤ)) else none
  | ds => if allDigits ds then some (digitsVal ds) else none

/-- Unsigned decimal mantissa: `digits`, `digits.digits`, `digits.` or
`.digits`, with at least one digit overall. -/
def mantissa? (cs : List Char) : Option ℚ :=
  let ds := cs.takeWhile Char.isDigit
  let rest := cs.dropWhile Char.isDigit
  match rest with
  | [] => if ds.isEmpty then none else some (digitsVal ds : ℚ)
  | '.' :: fs =>
    if fs.all Char.isDigit && !(ds.isEmpty && fs.isEmpty) then
      some ((digitsVal ds : ℚ) + (digitsVal fs : ℚ) / 10 ^ fs.length)
    else none
  | _ => none

/-- Mantissa with an optional leading sign. -/
def signedMantissa? : List Char → Option ℚ
  | '+' :: cs => mantissa? cs
  | '-' :: cs => (mantissa? cs).map Neg.neg
  | cs => mantissa? cs

/-- Exponent part of a float literal: optional sign, non-empty digits. -/
def expPart? (cs : List Char) : Option ℤ :=
  match cs with
  | '+' :: ds => if allDigits ds then some (digitsVal ds) else none
  | '-' :: ds => if allDigits ds then some (-(digitsVal ds : ℤ)) else none
  | ds => if allDigits ds then some (digitsVal ds) else none

/-- Split a literal at the first `e`/`E`, when present. -/
def splitExp : List Char → Option (List Char × List Char)
  | [] => none
  | c :: cs =>
    if c = 'e' || c = 'E' then some ([], cs)
    else match splitExp cs with
      | none => none
      | some (m, e) => some (c :: m, e)

/-- Python `float(s)` on the decimal-literal grammar; `none` models the
`ValueError` raised on non-numeric text. -/
def pyFloat? (s : List Char) : Option ℚ :=
  let cs := stripWs s
  match splitExp cs with
  | none => signedMantissa? cs
  | some (m, e) => do
    let mv ← signedMantissa? m
    let ev ← expPart? e
    pure (mv * (10 : ℚ) ^ ev)

/-- Python `s.replace("ms", "")`: remove every occurrence of `ms`,
scanning left to right. -/
def stripMs : List Char → List Char
  | [] => []
  | 'm' :: 's' :: rest => stripMs rest
  | c :: rest => c :: stripMs rest

/-- Python `min` of a non-empty list (junk value `0` on `[]`, which the
code never evaluates). -/
def pyMin : List ℚ → ℚ
  | [] => 0
  | x :: xs => xs.foldl min x

/-- Python `max` of a non-empty list (junk value `0` on `[]`). -/
def pyMax : List ℚ → ℚ
  | [] => 0
  | x :: xs => xs.foldl max x

/-- Python `sum`. -/
def pySum (l : List ℚ) : ℚ := l.sum

/-- `sum(l) / len(l)` as written at the call sites. -/
def pyMean (l : List ℚ) : ℚ := pySum l / l.length

/-- Python `statistics.median`: sort, then take the middle element (odd
length) or the mean of the two middle elements (even length). -/
def pyMedian (l : List ℚ) : ℚ :=
  let s := List.insertionSort (· ≤ ·) l
  let n := l.length
  if n % 2 = 1 then s.getD (n / 2) 0
  else (s.getD (n / 2 - 1) 0 + s.getD (n / 2) 0) / 2

/-- Round a rational to the nearest integer, ties to even — the rounding
used by Python's `round`. -/
def roundHalfEven (q : ℚ) : ℤ :=
  let f := ⌊q⌋
  let r := q - f
  if r < 1 / 2 then f
  else if 1 / 2 < r then f + 1
  else if f % 2 = 0 then f else f + 1

/-- Python `round(q, 3)`. -/
def pyRound3 (q : ℚ) : ℚ := (roundHalfEven (q * 1000) : ℚ) / 1000

/-! ## `pingstats.py` -/

/-- The token pattern `time=`. -/
def timePat : List Char := "time=".data

/-- Python `tok.split("=")`. -/
def splitOnEq : List Char → List (List Char)
  | [] => [[]]
  | c :: rest =>
    if c = '=' then [] :: splitOnEq rest
    else match splitOnEq rest with
      | [] => [[c]]
      | t :: ts => (c :: t) :: ts

/-- The latency contributed by one token of a ping output line:
`float(part.split("=")[1])` for a token starting with `time=`, skipped
when the value does not parse. -/
def tokenLatency (tok : List Char) : Option ℚ :=
  if startsWithL timePat tok then pyFloat? ((splitOnEq tok).getD 1 []) else none

/-- Latencies contributed by one line of ping output: tokens are scanned
only when the line contains the substring `time=`. -/
def lineLatencies (line : List Char) : List ℚ :=
  if containsTok timePat line then (pySplit line).filterMap tokenLatency else []

/-- The sample-extraction loop of `parse_ping_output`. -/
def extract_latencies (text : String) : List ℚ :=
  ((pyLines text.data).map lineLatencies).flatten

/-- The `{avg, max, med, min}` dictionary produced by the ping tools. -/
structure PingSummary where
  avg : ℚ
  max : ℚ
  med : ℚ
  min : ℚ
deriving DecidableEq, Repr

/-- `parse_ping_output` from `pingstats.py`: extract all samples and
summarise them, or return `None` when no sample was found. -/
def parse_ping_output (text : String) : Option PingSummary :=
  if (extract_latencies text).isEmpty then none
  else some ⟨pyMean (extract_latencies text), pyMax (extract_latencies text),
    pyMedian (extract_latencies text), pyMin (extract_latencies text)⟩

/-- `aggregate_ping_stats` from `pingstats.py`: pool the four summary
fields of every run and summarise the pooled list. -/
def aggregate_ping_stats (stats_list : List PingSummary) : PingSummary :=
  let all := (stats_list.map (fun s => [s.min, s.med, s.avg, s.max])).flatten
  ⟨pyRound3 (pyMean all), pyMax all, pyMedian all, pyMin all⟩

/-! ## `trstats.py` -/

/-- One hop record, the dictionary built by `parse_traceroute_output`. -/
structure Hop where
  avg : ℚ
  hop : ℤ
  hosts : List (String × String)
  max : ℚ
  med : ℚ
  min : ℚ
deriving DecidableEq, Repr

/-- A token that `startswith('(')` and `endswith(')')`. -/
def isParenTok (t : List Char) : Bool :=
  t.head? = some '(' && t.getLast? = some ')'

/-- The cursor loop of `parse_traceroute_output` over the tokens after
the hop number: parenthesized tokens are skipped, tokens parseable as a
float (after removing `ms`) are latencies, and any other token is a
hostname that is paired with an immediately following parenthesized IP
(the pair appended if not already present) or otherwise dropped. -/
def scanParts : List (List Char) → List (List Char × List Char) → List ℚ →
    List (List Char × List Char) × List ℚ
  | [], hosts, lats => (hosts, lats)
  | t :: rest, hosts, lats =>
    if isParenTok t then scanParts rest hosts lats
    else
      match pyFloat? (stripMs t) with
      | some q => scanParts rest hosts (lats ++ [q])
      | none =>
        match rest with
        | [] => (hosts, lats)
        | t2 :: rest2 =>
          if isParenTok t2 then
            scanParts rest2 (if (t, t2) ∈ hosts then hosts else hosts ++ [(t, t2)]) lats
          else
            scanParts (t2 :: rest2) hosts lats

/-- Processing of one line of traceroute output.  Header and blank lines
yield nothing; `int(parts[0])` failing is the `ValueError` the Python
code would raise; a line whose scan found no latency yields no record. -/
def parseTrLine (line : List Char) : Except String (Option Hop) :=
  if startsWithL "traceroute".data line || (stripWs line).isEmpty then .ok none
  else
    match pySplit line with
    | [] => .error "IndexError"
    | p0 :: rest =>
      match pyInt? p0 with
      | none => .error "ValueError"
      | some n =>
        if (scanParts rest [] []).2.isEmpty then .ok none
        else .ok (some ⟨pyMean (scanParts rest [] []).2, n,
          (scanParts rest [] []).1.map (fun p => (String.mk p.1, String.mk p.2)),
          pyMax (scanParts rest [] []).2, pyMedian (scanParts rest [] []).2,
          pyMin (scanParts rest [] []).2⟩)

/-- Fold `parseTrLine` over the lines, collecting the hop records in
order; the first raised error aborts the parse. -/
def parseTrLines : List (List Char) → Except String (List Hop)
  | [] => .ok []
  | l :: ls => do
    let h? ← parseTrLine l
    let rest ← parseTrLines ls
    pure (h?.toList ++ rest)

/-- `parse_traceroute_output` from `trstats.py`. -/
def parse_traceroute_output (text : String) : Except String (List Hop) :=
  parseTrLines (pyLines text.data)

/-- One value of the `aggregated` dictionary of `aggregate_stats`:
the hop number, the host list of the first contributing hop record, and
the four pooled value lists. -/
structure AggEntry where
  hop : ℤ
  hosts : List (String × String)
  minL : List ℚ
  maxL : List ℚ
  avgL : List ℚ
  medL : List ℚ
deriving DecidableEq, Repr

/-- The dictionary-update step of `aggregate_stats` for one hop record:
insert an empty entry if the hop number is new, then append the four
summary values to the entry's pooled lists. -/
def addHop (acc : List AggEntry) (h : Hop) : List AggEntry :=
  (if acc.any (fun e => e.hop == h.hop) then acc
   else acc ++ [⟨h.hop, h.hosts, [], [], [], []⟩]).map
    (fun e => if e.hop = h.hop then
      { e with minL := e.minL ++ [h.min], maxL := e.maxL ++ [h.max],
               avgL := e.avgL ++ [h.avg], medL := e.medL ++ [h.med] } else e)

/-- The accumulation loops of `aggregate_stats`, the insertion-ordered
dictionary modelled as an association list. -/
def buildAgg (runs : List (List Hop)) : List AggEntry :=
  runs.flatten.foldl addHop []

/-- The final-statistics record computed from one aggregated entry. -/
def aggHopOf (e : AggEntry) : Hop :=
  ⟨pyRound3 (pyMean e.avgL), e.hop, e.hosts, pyMax e.maxL, pyMedian e.medL, pyMin e.minL⟩

/-- `aggregate_stats` from `trstats.py`: accumulate all runs, then emit
one record per hop number in sorted key order. -/
def aggregate_stats (runs : List (List Hop)) : List Hop :=
  (List.insertionSort (· ≤ ·) ((buildAgg runs).map (·.hop))).filterMap
    (fun n => ((buildAgg runs).find? (fun e => e.hop == n)).map aggHopOf)

/-- Deduplication keeping the first occurrence of each element. -/
def firstDedup : List ℤ → List ℤ
  | [] => []
  | x :: xs => x :: (firstDedup xs).filter (fun y => y != x)

/-- The aggregated entry for hop number `n` described directly from the
pooled hop records: the four value lists pooled over exactly the hop
records with that number, and the hosts of the first of them. -/
def entryOf (all : List Hop) (n : ℤ) : AggEntry :=
  ⟨n, (((all.filter (fun h => h.hop == n)).head?).map (·.hosts)).getD [],
    (all.filter (fun h => h.hop == n)).map (·.min),
    (all.filter (fun h => h.hop == n)).map (·.max),
    (all.filter (fun h => h.hop == n)).map (·.avg),
    (all.filter (fun h => h.hop == n)).map (·.med)⟩

/-- The traceroute aggregation as the specification words it: group the
hop records of all runs by hop number; for each distinct hop number pool
the four summary values over the runs that reported it, computing
`avg` as the rounded mean of pooled `avg` values, `max`/`med`/`min` as
max/median/min of the corresponding pooled lists; copy `hosts` from the
first record with that hop number; sort the output ascending by hop
number. -/
def aggregateSpec (runs : List (List Hop)) : List Hop :=
  (List.insertionSort (· ≤ ·) (firstDedup (runs.flatten.map (·.hop)))).filterMap
    (fun n =>
    match runs.flatten.filter (fun h => h.hop == n) with
    | [] => none
    | g0 :: gs =>
      some ⟨pyRound3 (pyMean ((g0 :: gs).map (·.avg))), n, g0.hosts,
            pyMax ((g0 :: gs).map (·.max)), pyMedian ((g0 :: gs).map (·.med)),
            pyMin ((g0 :: gs).map (·.min))⟩)

/-! ## Models of the two `main` functions

The observable effects of `main` are reified: whether a diagnostic
message was printed, and whether the JSON file and the image file were
written.  Subprocess results are inputs: `none` models a run whose
invocation failed (the runner printed its error and returned `None`). -/

/-- The observable outcome of one program invocation. -/
structure MainOut where
  printedDiagnostic : Bool
  jsonWritten : Bool
  imageWritten : Bool
deriving DecidableEq, Repr

/-- `main` of `pingstats.py`: missing target or failed run writes
nothing; an output that parses to no samples silently skips the report;
otherwise both files are written. -/
def pingstats_main (target? : Option String) (runOutput? : Option String) : MainOut :=
  match target? with
  | none => ⟨true, false, false⟩
  | some _ =>
    match runOutput? with
    | none => ⟨true, false, false⟩
    | some out =>
      if out = "" then ⟨false, false, false⟩
      else
        match parse_ping_output out with
        | none => ⟨false, false, false⟩
        | some _ => ⟨false, true, true⟩

/-- The fixture-reading loop of `trstats.py` `main`: a missing fixture
(`none`) is reported and skipped; the parse of a present fixture is
appended, its exception propagating. -/
def trstats_collect : List (Option String) → Except String (List (List Hop))
  | [] => .ok []
  | none :: rest => trstats_collect rest
  | some txt :: rest => do
    let hops ← parse_traceroute_output txt
    let others ← trstats_collect rest
    pure (hops :: others)

/-- `main` of `trstats.py` in fixture (`--test`) mode: after collecting
the runs it always aggregates and writes the JSON file; the plot is then
written only when the aggregation is non-empty — on an empty aggregation
`plt.boxplot` raises inside `generate_boxplot` before `savefig`, so the
program aborts with the JSON written but no image.  An uncaught parse
exception during collection aborts with nothing written. -/
def trstats_main_test (fixtures : List (Option String)) :
    Except String (MainOut × List Hop) := do
  let hops_list ← trstats_collect fixtures
  pure (⟨fixtures.any Option.isNone, true, !(aggregate_stats hops_list).isEmpty⟩,
    aggregate_stats hops_list)

/-- The live-run loop of `trstats.py` `main`: a failed run (`none`) was
already reported by the runner and contributes nothing, as does an empty
(falsy) output; other outputs are parsed and appended. -/
def trstats_collectLive : List (Option String) → Except String (List (List Hop))
  | [] => .ok []
  | none :: rest => trstats_collectLive rest
  | some txt :: rest =>
    if txt = "" then trstats_collectLive rest
    else do
      let hops ← parse_traceroute_output txt
      let others ← trstats_collectLive rest
      pure (hops :: others)

/-- `main` of `trstats.py` in live mode: a missing target prints a
diagnostic and returns with nothing written; otherwise the runs are
collected, the JSON report is always written, and the plot is written
only when the aggregation is non-empty (`plt.boxplot` raises on the
empty aggregation before `savefig`, aborting the program after the JSON
write). -/
def trstats_main_live (target? : Option String) (runs : List (Option String)) :
    Except String (MainOut × List Hop) :=
  match target? with
  | none => .ok (⟨true, false, false⟩, [])
  | some _ => do
    let hops_list ← trstats_collectLive runs
    pure (⟨runs.any Option.isNone, true, !(aggregate_stats hops_list).isEmpty⟩,
      aggregate_stats hops_list)

/-! ## Theorems -/

/-- C1: parsing the single traceroute line
`"3  router.example.com (192.168.1.1)  15.234 ms  16.012 ms"` yields
exactly one hop record with hop number 3, hosts
`[("router.example.com", "(192.168.1.1)")]`, and summary values computed
from the two samples 15.234 and 16.012 (min 15.234, max 16.012,
med 15.623, avg 15.623); the token scan collects exactly those two
latency samples and one host pair, the standalone `ms` tokens
contributing neither a sample nor a host entry. -/
theorem c1_parse_traceroute_line :
    parse_traceroute_output "3  router.example.com (192.168.1.1)  15.234 ms  16.012 ms" =
      .ok [{ avg := 15623/1000, hop := 3,
             hosts := [("router.example.com", "(192.168.1.1)")],
             max := 16012/1000, med := 15623/1000, min := 15234/1000 }] ∧
    scanParts ["router.example.com".data, "(192.168.1.1)".data,
               "15.234".data, "ms".data, "16.012".data, "ms".data] [] [] =
      ([("router.example.com".data, "(192.168.1.1)".data)], [15234/1000, 16012/1000]) := by
  constructor
  · norm_num +decide [parse_traceroute_output, pyLines, pyLinesAux, parseTrLines, parseTrLine,
      pySplit, splitWsF, stripWs, isWs, startsWithL, pyInt?, allDigits, digitsVal, digitVal,
      scanParts, isParenTok, pyFloat?, splitExp, signedMantissa?, mantissa?, expPart?, stripMs,
      pyMean, pySum, pyMedian, pyMin, pyMax, List.insertionSort, List.orderedInsert,
      Bind.bind, Except.bind, Pure.pure, Except.pure]
  · norm_num +decide [scanParts, isParenTok, pyFloat?, splitExp, stripWs, isWs,
      signedMantissa?, mantissa?, expPart?, allDigits, digitsVal, digitVal, stripMs]

/-- C4: aggregating the two ping summaries `{min 1, med 2, avg 3, max 4}`
and `{min 2, med 3, avg 4, max 5}` pools the eight values into the list
`[1, 2, 3, 4, 2, 3, 4, 5]` and yields `{avg 3, max 5, med 3, min 1}`,
`avg` being the rounded mean and `med` the median of the pooled list. -/
theorem c4_aggregate_ping_example :
    (([(⟨3, 4, 2, 1⟩ : PingSummary), ⟨4, 5, 3, 2⟩].map
        (fun s => [s.min, s.med, s.avg, s.max])).flatten
      = [1, 2, 3, 4, 2, 3, 4, 5]) ∧
    aggregate_ping_stats [⟨3, 4, 2, 1⟩, ⟨4, 5, 3, 2⟩] = ⟨3, 5, 3, 1⟩ := by
  constructor
  · norm_num
  · norm_num [aggregate_ping_stats, pyRound3, roundHalfEven, pyMean, pySum, pyMedian,
      pyMin, pyMax, List.insertionSort, List.orderedInsert]

/-- C5 counterexample: in fixture mode with the single fixture file
missing, the run produced no usable data and the diagnostic was
printed, yet the program does not return early: it still writes the
JSON file (holding the empty aggregation) before aborting in the plot
step, so an output file is written. -/
theorem c5_counterexample :
    trstats_main_test [none] = .ok (⟨true, true, false⟩, []) := by
  rfl

/-- C5 (amended): a missing target makes either pipeline print a
diagnostic and write no files, and a failed or sample-less ping run
writes no files (silently in the sample-less case); the traceroute
pipeline, however, does not return early on unusable data: whenever
collection raises no exception it writes the JSON report (even the
empty aggregation), and the image is then written exactly when the
aggregation is non-empty — on an empty aggregation the plot step
raises and the program aborts after the JSON write. -/
theorem c5_amended_exit_behavior :
    (∀ r, pingstats_main none r = ⟨true, false, false⟩)
  ∧ (∀ t, pingstats_main (some t) none = ⟨true, false, false⟩)
  ∧ (∀ t out, parse_ping_output out = none →
      (pingstats_main (some t) (some out)).jsonWritten = false ∧
      (pingstats_main (some t) (some out)).imageWritten = false)
  ∧ (∀ runs, trstats_main_live none runs = .ok (⟨true, false, false⟩, []))
  ∧ (∀ fixtures out, trstats_main_test fixtures = .ok out →
      out.1.jsonWritten = true ∧ out.1.imageWritten = !out.2.isEmpty)
  ∧ (∀ t runs out, trstats_main_live (some t) runs = .ok out →
      out.1.jsonWritten = true ∧ out.1.imageWritten = !out.2.isEmpty) := by
  refine ⟨fun r => rfl, fun t => rfl, ?_, fun runs => rfl, ?_, ?_⟩
  · intro t out hparse
    by_cases hout : out = ""
    · subst hout; exact ⟨rfl, rfl⟩
    · simp [pingstats_main, hout, hparse]
  · intro fixtures out hout
    unfold trstats_main_test at hout
    cases hcol : trstats_collect fixtures with
    | error e => rw [hcol] at hout; exact absurd hout (by simp [Bind.bind, Except.bind])
    | ok l =>
      rw [hcol] at hout
      simp [Bind.bind, Except.bind, Pure.pure, Except.pure] at hout
      rw [← hout]
      exact ⟨rfl, rfl⟩
  · intro t runs out hout
    unfold trstats_main_live at hout
    cases hcol : trstats_collectLive runs with
    | error e => rw [hcol] at hout; exact absurd hout (by simp [Bind.bind, Except.bind])
    | ok l =>
      rw [hcol] at hout
      simp [Bind.bind, Except.bind, Pure.pure, Except.pure] at hout
      rw [← hout]
      exact ⟨rfl, rfl⟩

/-- C5 witness: the amended theorem applied to a ping output with no
parseable sample and to a concrete fixture run with a missing file. -/
theorem c5_amended_witness :
    ((pingstats_main (some "h") (some "x")).jsonWritten = false ∧
     (pingstats_main (some "h") (some "x")).imageWritten = false) ∧
    (((⟨true, true, false⟩ : MainOut), ([] : List Hop)).1.jsonWritten = true ∧
     ((⟨true, true, false⟩ : MainOut), ([] : List Hop)).1.imageWritten =
       !([] : List Hop).isEmpty) :=
  ⟨c5_amended_exit_behavior.2.2.1 "h" "x" (by decide),
   c5_amended_exit_behavior.2.2.2.2.1 [none] (⟨true, true, false⟩, []) (by rfl)⟩

/-- Unfolding lemma: a parenthesized token is skipped by the scan. -/
theorem scanParts_paren (t : List Char) (rest : List (List Char))
    (hs : List (List Char × List Char)) (ls : List ℚ) (h : isParenTok t = true) :
    scanParts (t :: rest) hs ls = scanParts rest hs ls := by
  cases rest with
  | nil => conv_lhs => rw [scanParts]
           simp [h]
  | cons t2 rest2 => conv_lhs => rw [scanParts]
                     simp [h]

/-- Unfolding lemma: a float token is recorded as a latency sample. -/
theorem scanParts_float (t : List Char) (rest : List (List Char))
    (hs : List (List Char × List Char)) (ls : List ℚ) (q : ℚ)
    (h : isParenTok t = false) (hq : pyFloat? (stripMs t) = some q) :
    scanParts (t :: rest) hs ls = scanParts rest hs (ls ++ [q]) := by
  cases rest with
  | nil => conv_lhs => rw [scanParts]
           simp [h, hq]
  | cons t2 rest2 => conv_lhs => rw [scanParts]
                     simp [h, hq]

/-- Unfolding lemma: a trailing hostname token ends the scan. -/
theorem scanParts_lastHost (t : List Char)
    (hs : List (List Char × List Char)) (ls : List ℚ)
    (h : isParenTok t = false) (hq : pyFloat? (stripMs t) = none) :
    scanParts [t] hs ls = (hs, ls) := by
  conv_lhs => rw [scanParts]
  simp [h, hq]

/-- Unfolding lemma: a hostname followed by a parenthesized token pairs
the two, appending the pair when it is new. -/
theorem scanParts_pair (t t2 : List Char) (rest2 : List (List Char))
    (hs : List (List Char × List Char)) (ls : List ℚ)
    (h : isParenTok t = false) (hq : pyFloat? (stripMs t) = none)
    (h2 : isParenTok t2 = true) :
    scanParts (t :: t2 :: rest2) hs ls =
      scanParts rest2 (if (t, t2) ∈ hs then hs else hs ++ [(t, t2)]) ls := by
  conv_lhs => rw [scanParts]
  simp [h, hq, h2]

/-- Unfolding lemma: a hostname with an unparenthesized successor is
dropped. -/
theorem scanParts_skip (t t2 : List Char) (rest2 : List (List Char))
    (hs : List (List Char × List Char)) (ls : List ℚ)
    (h : isParenTok t = false) (hq : pyFloat? (stripMs t) = none)
    (h2 : isParenTok t2 = false) :
    scanParts (t :: t2 :: rest2) hs ls = scanParts (t2 :: rest2) hs ls := by
  conv_lhs => rw [scanParts]
  simp [h, hq, h2]

/-- Every pair in the host list produced by the token scan was already
in the incoming list or has a parenthesized second component. -/
theorem scanParts_hosts_mem : ∀ toks hs ls p, p ∈ (scanParts toks hs ls).1 →
    p ∈ hs ∨ isParenTok p.2 = true := by
  intro toks hs ls
  induction toks, hs, ls using scanParts.induct with
  | case1 hosts lats => exact fun p hp => Or.inl hp
  | case2 t rest hosts lats h ih =>
    intro p hp
    rw [scanParts_paren t rest hosts lats h] at hp
    exact ih p hp
  | case3 t rest hosts lats h q hq ih =>
    rw [Bool.not_eq_true] at h
    intro p hp
    rw [scanParts_float t rest hosts lats q h hq] at hp
    exact ih p hp
  | case4 t hosts lats h hq =>
    rw [Bool.not_eq_true] at h
    intro p hp
    rw [scanParts_lastHost t hosts lats h hq] at hp
    exact Or.inl hp
  | case5 t1 hosts lats h1 hq t2 ts h2 ih =>
    rw [Bool.not_eq_true] at h1
    intro p hp
    rw [scanParts_pair t1 t2 ts hosts lats h1 hq h2] at hp
    rcases ih p hp with hmem | hpar
    · by_cases hin : (t1, t2) ∈ hosts
      · rw [if_pos hin] at hmem; exact Or.inl hmem
      · rw [if_neg hin] at hmem
        rcases List.mem_append.mp hmem with h' | h'
        · exact Or.inl h'
        · have hpe : p = (t1, t2) := by simpa using h'
          subst hpe
          exact Or.inr h2
    · exact Or.inr hpar
  | case6 t1 hosts lats h1 hq t2 ts h2 ih =>
    rw [Bool.not_eq_true] at h1 h2
    intro p hp
    rw [scanParts_skip t1 t2 ts hosts lats h1 hq h2] at hp
    exact ih p hp

/-- The token scan only appends to the incoming host list. -/
theorem scanParts_hosts_append : ∀ toks hs ls, ∃ extra,
    (scanParts toks hs ls).1 = hs ++ extra := by
  intro toks hs ls
  induction toks, hs, ls using scanParts.induct with
  | case1 hosts lats => exact ⟨[], (List.append_nil _).symm⟩
  | case2 t rest hosts lats h ih =>
    rw [scanParts_paren t rest hosts lats h]
    exact ih
  | case3 t rest hosts lats h q hq ih =>
    rw [Bool.not_eq_true] at h
    rw [scanParts_float t rest hosts lats q h hq]
    exact ih
  | case4 t hosts lats h hq =>
    rw [Bool.not_eq_true] at h
    rw [scanParts_lastHost t hosts lats h hq]
    exact ⟨[], (List.append_nil _).symm⟩
  | case5 t1 hosts lats h1 hq t2 ts h2 ih =>
    rw [Bool.not_eq_true] at h1
    rw [scanParts_pair t1 t2 ts hosts lats h1 hq h2]
    by_cases hin : (t1, t2) ∈ hosts
    · rw [if_pos hin]
      rw [if_pos hin] at ih
      exact ih
    · rw [if_neg hin]
      rw [if_neg hin] at ih
      obtain ⟨e, he⟩ := ih
      exact ⟨(t1, t2) :: e, by rw [he, List.append_assoc]; rfl⟩
  | case6 t1 hosts lats h1 hq t2 ts h2 ih =>
    rw [Bool.not_eq_true] at h1 h2
    rw [scanParts_skip t1 t2 ts hosts lats h1 hq h2]
    exact ih

/-- The token scan preserves freedom from duplicate host pairs. -/
theorem scanParts_hosts_nodup : ∀ toks hs ls, hs.Nodup →
    (scanParts toks hs ls).1.Nodup := by
  intro toks hs ls
  induction toks, hs, ls using scanParts.induct with
  | case1 hosts lats => exact fun h => h
  | case2 t rest hosts lats h ih =>
    intro hn
    rw [scanParts_paren t rest hosts lats h]
    exact ih hn
  | case3 t rest hosts lats h q hq ih =>
    rw [Bool.not_eq_true] at h
    intro hn
    rw [scanParts_float t rest hosts lats q h hq]
    exact ih hn
  | case4 t hosts lats h hq =>
    rw [Bool.not_eq_true] at h
    intro hn
    rw [scanParts_lastHost t hosts lats h hq]
    exact hn
  | case5 t1 hosts lats h1 hq t2 ts h2 ih =>
    rw [Bool.not_eq_true] at h1
    intro hn
    rw [scanParts_pair t1 t2 ts hosts lats h1 hq h2]
    refine ih ?_
    by_cases hin : (t1, t2) ∈ hosts
    · rwa [if_pos hin]
    · rw [if_neg hin]
      refine List.Nodup.append hn (List.nodup_singleton _) ?_
      intro a ha hb
      have hab : a = (t1, t2) := by simpa using hb
      subst hab
      exact hin ha
  | case6 t1 hosts lats h1 hq t2 ts h2 ih =>
    rw [Bool.not_eq_true] at h1 h2
    intro hn
    rw [scanParts_skip t1 t2 ts hosts lats h1 hq h2]
    exact ih hn

/-- Shape of a hop record produced from one parsed line: its fields are
the summaries of a non-empty latency list and the scanned host pairs. -/
theorem parseTrLine_ok_some (line : List Char) (h : Hop)
    (hp : parseTrLine line = .ok (some h)) :
    ∃ toks, (scanParts toks [] []).2 ≠ [] ∧
      h.hosts = (scanParts toks [] []).1.map (fun p => (String.mk p.1, String.mk p.2)) ∧
      h.min = pyMin (scanParts toks [] []).2 ∧
      h.max = pyMax (scanParts toks [] []).2 ∧
      h.med = pyMedian (scanParts toks [] []).2 ∧
      h.avg = pyMean (scanParts toks [] []).2 := by
  unfold parseTrLine at hp
  split at hp
  · simp at hp
  · split at hp
    · simp at hp
    · rename_i p0 rest hsplit
      split at hp
      · simp at hp
      · rename_i n hn
        split at hp
        · simp at hp
        · rename_i hne
          refine ⟨rest, by simpa using hne, ?_⟩
          simp only [Except.ok.injEq, Option.some.injEq] at hp
          rw [← hp]
          exact ⟨rfl, rfl, rfl, rfl, rfl⟩

/-- Every hop of a successful parse comes from a successfully parsed
line of the input. -/
theorem mem_parseTrLines : ∀ (ls : List (List Char)) hops h,
    parseTrLines ls = .ok hops → h ∈ hops →
    ∃ line, line ∈ ls ∧ parseTrLine line = .ok (some h) := by
  intro ls
  induction ls with
  | nil =>
    intro hops h hok hmem
    simp only [parseTrLines] at hok
    have : hops = [] := by simpa using hok.symm
    subst this; cases hmem
  | cons l ls ih =>
    intro hops h hok hmem
    unfold parseTrLines at hok
    cases hl : parseTrLine l with
    | error e => rw [hl] at hok; simp [Bind.bind, Except.bind] at hok
    | ok h? =>
      rw [hl] at hok
      cases hr : parseTrLines ls with
      | error e => rw [hr] at hok; simp [Bind.bind, Except.bind] at hok
      | ok rest =>
        rw [hr] at hok
        simp only [Bind.bind, Except.bind, Pure.pure, Except.pure,
          Except.ok.injEq] at hok
        subst hok
        rcases List.mem_append.mp hmem with hmem | hmem
        · cases h? with
          | none => simp at hmem
          | some h0 =>
            have : h = h0 := by simpa using hmem
            subst this
            exact ⟨l, List.mem_cons_self _ _, hl⟩
        · obtain ⟨line, hline, hpl⟩ := ih rest h hr hmem
          exact ⟨line, List.mem_cons_of_mem _ hline, hpl⟩

/-- C6 counterexample: in the line `"1 hosta 5.0"` the token `hosta` is
classified as a hostname and its following token is not parenthesized;
the parsed hop's host list is empty — the hostname was dropped, not
retained. -/
theorem c6_counterexample :
    parse_traceroute_output "1 hosta 5.0" =
      .ok [{ avg := 5, hop := 1, hosts := [], max := 5, med := 5, min := 5 }] := by
  norm_num +decide [parse_traceroute_output, pyLines, pyLinesAux, parseTrLines, parseTrLine,
    pySplit, splitWsF, stripWs, isWs, startsWithL, pyInt?, allDigits, digitsVal, digitVal,
    scanParts, isParenTok, pyFloat?, splitExp, signedMantissa?, mantissa?, expPart?, stripMs,
    pyMean, pySum, pyMedian, pyMin, pyMax, List.insertionSort, List.orderedInsert,
    Bind.bind, Except.bind, Pure.pure, Except.pure]

/-- C6 (amended): a hostname token whose immediately following token is
not parenthesized is silently dropped — no host entry records it — so
every host pair of every parsed hop has a parenthesized IP component. -/
theorem c6_amended_hostname_dropped : ∀ (text : String) hops h p,
    parse_traceroute_output text = .ok hops → h ∈ hops → p ∈ h.hosts →
    isParenTok p.2.data = true := by
  intro text hops h p hok hmem hp
  obtain ⟨line, _, hline⟩ := mem_parseTrLines _ hops h hok hmem
  obtain ⟨toks, _, hhosts, _⟩ := parseTrLine_ok_some line h hline
  rw [hhosts] at hp
  obtain ⟨q, hq, hq2⟩ := List.mem_map.mp hp
  rcases scanParts_hosts_mem toks [] [] q hq with h' | h'
  · cases h'
  · rw [← hq2]
    exact h'

/-- C7 counterexample: on the non-blank, non-header line `"x 1.0"`
whose first token is not an integer, `parse_traceroute_output` raises
`ValueError` (from `int(parts[0])`) instead of completing. -/
theorem c7_counterexample :
    parse_traceroute_output "x 1.0" = .error "ValueError" := by
  rfl

/-- Lines that all process without an exception make the whole parse
complete without an exception. -/
theorem parseTrLines_isOk (ls : List (List Char))
    (h : ∀ line ∈ ls, (parseTrLine line).isOk = true) :
    (parseTrLines ls).isOk = true := by
  induction ls with
  | nil => rfl
  | cons l ls ih =>
    unfold parseTrLines
    cases hl : parseTrLine l with
    | error e =>
      have := h l (List.mem_cons_self _ _)
      rw [hl] at this
      cases this
    | ok h? =>
      cases hr : parseTrLines ls with
      | error e =>
        have := ih fun line hline => h line (List.mem_cons_of_mem _ hline)
        rw [hr] at this
        cases this
      | ok rest =>
        simp [Bind.bind, Except.bind, Pure.pure, Except.pure, hl, hr, Except.isOk, Except.toBool]

/-- Each line processes without an exception as soon as its first token
is an integer (or the line is skipped). -/
theorem parseTrLine_isOk (line : List Char)
    (h : startsWithL "traceroute".data line = false →
      (stripWs line).isEmpty = false →
      pySplit line ≠ [] ∧ (pyInt? ((pySplit line).headD [])).isSome = true) :
    (parseTrLine line).isOk = true := by
  unfold parseTrLine
  by_cases hskip : (startsWithL "traceroute".data line || (stripWs line).isEmpty) = true
  · rw [if_pos hskip]; rfl
  · rw [if_neg hskip]
    rw [Bool.or_eq_true, not_or, Bool.not_eq_true, Bool.not_eq_true] at hskip
    obtain ⟨hne, hint⟩ := h hskip.1 hskip.2
    cases hps : pySplit line with
    | nil => exact absurd hps hne
    | cons p0 rest =>
      rw [hps] at hint
      simp only [List.headD_cons] at hint
      cases hpi : pyInt? p0 with
      | none => rw [hpi] at hint; cases hint
      | some n =>
        by_cases hemp : (scanParts rest [] []).2.isEmpty = true
        · simp [hpi, hemp, Except.isOk, Except.toBool]
        · simp [hpi, hemp, Except.isOk, Except.toBool]

/-- C7 (amended): `parse_traceroute_output` completes without raising an
exception on every input text whose non-blank, non-header lines each
start with a token parseable as an integer; the hop-number conversion
`int(parts[0])` is the one statement that can raise on other inputs. -/
theorem c7_amended_no_abort : ∀ text : String,
    (∀ line ∈ pyLines text.data,
      startsWithL "traceroute".data line = false →
      (stripWs line).isEmpty = false →
      pySplit line ≠ [] ∧ (pyInt? ((pySplit line).headD [])).isSome = true) →
    (parse_traceroute_output text).isOk = true := by
  intro text h
  exact parseTrLines_isOk _ fun line hline => parseTrLine_isOk line (h line hline)

/-- C7 witness: the amended theorem applied to a concrete two-line
traceroute output. -/
theorem c7_amended_witness :
    (parse_traceroute_output "traceroute to h\n1 a (b) 2.0 ms").isOk = true :=
  c7_amended_no_abort "traceroute to h\n1 a (b) 2.0 ms" (by decide)

/-- C8 counterexample: a `time=` token whose value has the unit suffix
attached (`time=10.4ms`) is skipped entirely — `float("10.4ms")` fails —
so the parse finds no sample and returns `None`; the suffix is not
discarded and no value 10.4 is extracted. -/
theorem c8_counterexample : parse_ping_output "reply time=10.4ms" = none := by
  decide

/-- A list starts with itself followed by anything. -/
theorem startsWithL_append (p s : List Char) : startsWithL p (p ++ s) = true := by
  induction p with
  | nil => rfl
  | cons c cs ih => simpa [startsWithL] using ih

/-- Splitting on `=` leaves a string free of `=` whole. -/
theorem splitOnEq_no_eq (v : List Char) (hv : '=' ∉ v) : splitOnEq v = [v] := by
  induction v with
  | nil => rfl
  | cons c cs ih =>
    have hc : ¬c = '=' := fun h => hv (h ▸ List.mem_cons_self _ _)
    have hcs : '=' ∉ cs := fun h => hv (List.mem_cons_of_mem _ h)
    rw [splitOnEq, if_neg hc, ih hcs]

/-- On a token `time=<v>` with `v` free of `=`, the extracted value part
is exactly `v`. -/
theorem tokenLatency_timePat (v : List Char) (hv : '=' ∉ v) :
    tokenLatency (timePat ++ v) = pyFloat? v := by
  unfold tokenLatency
  rw [if_pos (startsWithL_append timePat v)]
  have hsplit : splitOnEq (timePat ++ v) = [['t', 'i', 'm', 'e'], v] := by
    show splitOnEq ('t' :: 'i' :: 'm' :: 'e' :: '=' :: v) = _
    simp +decide [splitOnEq, splitOnEq_no_eq v hv]
  rw [hsplit]
  rfl

/-- C8 (amended): a `time=` token contributes the float value of the
text between the first and the second `=` exactly when it parses as a
float; a value with an attached unit suffix does not parse, so such a
token — like any other malformed token — is skipped without aborting,
and a line containing no `time=` contributes nothing. -/
theorem c8_amended_time_token :
    (∀ line, containsTok timePat line = false → lineLatencies line = [])
  ∧ (∀ v q, '=' ∉ v → pyFloat? v = some q → tokenLatency (timePat ++ v) = some q)
  ∧ (∀ v, '=' ∉ v → pyFloat? v = none → tokenLatency (timePat ++ v) = none)
  ∧ (∀ text, extract_latencies text = ((pyLines text.data).map lineLatencies).flatten) := by
  refine ⟨?_, ?_, ?_, fun text => rfl⟩
  · intro line h
    unfold lineLatencies
    rw [h]
    rfl
  · exact fun v q hv hq => (tokenLatency_timePat v hv).trans hq
  · exact fun v hv hq => (tokenLatency_timePat v hv).trans hq

/-- C8 witness: the amended theorem applied to the concrete value
`10.5` and to a concrete suffixed value. -/
theorem c8_amended_witness :
    tokenLatency (timePat ++ "10.5".data) = some (21/2 : ℚ) ∧
    tokenLatency (timePat ++ "10.5ms".data) = none :=
  ⟨c8_amended_time_token.2.1 "10.5".data (21/2) (by decide)
      (by norm_num +decide [pyFloat?, splitExp, stripWs, isWs, signedMantissa?, mantissa?,
        allDigits, digitsVal, digitVal]),
   c8_amended_time_token.2.2.1 "10.5ms".data (by decide)
      (by norm_num +decide [pyFloat?, splitExp, stripWs, isWs, signedMantissa?, mantissa?,
        allDigits, digitsVal, digitVal])⟩

/-- C6 witness: the amended theorem applied to a concrete parse. -/
theorem c6_amended_witness : isParenTok ("(b)" : String).data = true :=
  c6_amended_hostname_dropped "1 a (b) 2.0"
    [⟨2, 1, [("a", "(b)")], 2, 2, 2⟩] ⟨2, 1, [("a", "(b)")], 2, 2, 2⟩ ("a", "(b)")
    (by norm_num +decide [parse_traceroute_output, pyLines, pyLinesAux, parseTrLines,
      parseTrLine, pySplit, splitWsF, stripWs, isWs, startsWithL, pyInt?, allDigits,
      digitsVal, digitVal, scanParts, isParenTok, pyFloat?, splitExp, signedMantissa?,
      mantissa?, expPart?, stripMs, pyMean, pySum, pyMedian, pyMin, pyMax,
      List.insertionSort, List.orderedInsert, Bind.bind, Except.bind, Pure.pure, Except.pure])
    (by simp) (by simp)

/-- C9: within every hop record produced by `parse_traceroute_output`,
the host list has no duplicate (hostname, ip) pair under exact pair
equality, and the scan only ever appends new pairs at the end of the
list, so pairs stand in first-insertion order. -/
theorem c9_hosts_nodup_insertion_order :
    (∀ (text : String) hops h, parse_traceroute_output text = .ok hops → h ∈ hops →
      h.hosts.Nodup)
  ∧ (∀ toks hs ls, ∃ extra, (scanParts toks hs ls).1 = hs ++ extra) := by
  constructor
  · intro text hops h hok hmem
    obtain ⟨line, _, hline⟩ := mem_parseTrLines _ hops h hok hmem
    obtain ⟨toks, _, hhosts, _⟩ := parseTrLine_ok_some line h hline
    rw [hhosts]
    refine List.Nodup.map ?_ (scanParts_hosts_nodup toks [] [] List.nodup_nil)
    intro a b hab
    have h1 : String.mk a.1 = String.mk b.1 := congrArg Prod.fst hab
    have h2 : String.mk a.2 = String.mk b.2 := congrArg Prod.snd hab
    exact Prod.ext (by injection h1) (by injection h2)
  · exact scanParts_hosts_append

/-- C9 witness: the theorem applied to a concrete parse. -/
theorem c9_witness :
    ((⟨2, 1, [("a", "(b)")], 2, 2, 2⟩ : Hop)).hosts.Nodup :=
  c9_hosts_nodup_insertion_order.1 "1 a (b) 2.0"
    [⟨2, 1, [("a", "(b)")], 2, 2, 2⟩] ⟨2, 1, [("a", "(b)")], 2, 2, 2⟩
    (by norm_num +decide [parse_traceroute_output, pyLines, pyLinesAux, parseTrLines,
      parseTrLine, pySplit, splitWsF, stripWs, isWs, startsWithL, pyInt?, allDigits,
      digitsVal, digitVal, scanParts, isParenTok, pyFloat?, splitExp, signedMantissa?,
      mantissa?, expPart?, stripMs, pyMean, pySum, pyMedian, pyMin, pyMax,
      List.insertionSort, List.orderedInsert, Bind.bind, Except.bind, Pure.pure, Except.pure])
    (by simp)

/-- A left fold with `min` is below its initial value. -/
theorem foldl_min_le_init (xs : List ℚ) (a : ℚ) : xs.foldl min a ≤ a := by
  induction xs generalizing a with
  | nil => exact le_refl a
  | cons x xs ih => exact le_trans (ih (min a x)) (min_le_left a x)

/-- A left fold with `min` is below every list element. -/
theorem foldl_min_le_mem (xs : List ℚ) (a x : ℚ) (hx : x ∈ xs) : xs.foldl min a ≤ x := by
  induction xs generalizing a with
  | nil => cases hx
  | cons y ys ih =>
    rcases List.mem_cons.mp hx with rfl | hx'
    · exact le_trans (foldl_min_le_init ys (min a x)) (min_le_right a x)
    · exact ih (min a y) hx'

/-- Python's `min` of a list bounds every element from below. -/
theorem pyMin_le_mem (l : List ℚ) (x : ℚ) (hx : x ∈ l) : pyMin l ≤ x := by
  cases l with
  | nil => cases hx
  | cons a xs =>
    rcases List.mem_cons.mp hx with rfl | hx'
    · exact foldl_min_le_init xs x
    · exact foldl_min_le_mem xs a x hx'

/-- A left fold with `max` is above its initial value. -/
theorem le_foldl_max_init (xs : List ℚ) (a : ℚ) : a ≤ xs.foldl max a := by
  induction xs generalizing a with
  | nil => exact le_refl a
  | cons x xs ih => exact le_trans (le_max_left a x) (ih (max a x))

/-- A left fold with `max` is above every list element. -/
theorem mem_le_foldl_max (xs : List ℚ) (a x : ℚ) (hx : x ∈ xs) : x ≤ xs.foldl max a := by
  induction xs generalizing a with
  | nil => cases hx
  | cons y ys ih =>
    rcases List.mem_cons.mp hx with rfl | hx'
    · exact le_trans (le_max_right a x) (le_foldl_max_init ys (max a x))
    · exact ih (max a y) hx'

/-- Python's `max` of a list bounds every element from above. -/
theorem mem_le_pyMax (l : List ℚ) (x : ℚ) (hx : x ∈ l) : x ≤ pyMax l := by
  cases l with
  | nil => cases hx
  | cons a xs =>
    rcases List.mem_cons.mp hx with rfl | hx'
    · exact le_foldl_max_init xs x
    · exact mem_le_foldl_max xs a x hx'

/-- A uniform lower bound scales to the sum. -/
theorem mul_card_le_sum (l : List ℚ) (m : ℚ) (hm : ∀ x ∈ l, m ≤ x) :
    (l.length : ℚ) * m ≤ l.sum := by
  induction l with
  | nil => simp
  | cons x xs ih =>
    have h1 := ih fun y hy => hm y (List.mem_cons_of_mem _ hy)
    have h2 := hm x (List.mem_cons_self _ _)
    simp only [List.length_cons, List.sum_cons]
    push_cast
    linarith

/-- A uniform upper bound scales to the sum. -/
theorem sum_le_mul_card (l : List ℚ) (M : ℚ) (hM : ∀ x ∈ l, x ≤ M) :
    l.sum ≤ (l.length : ℚ) * M := by
  induction l with
  | nil => simp
  | cons x xs ih =>
    have h1 := ih fun y hy => hM y (List.mem_cons_of_mem _ hy)
    have h2 := hM x (List.mem_cons_self _ _)
    simp only [List.length_cons, List.sum_cons]
    push_cast
    linarith

/-- The mean of a non-empty list lies between its min and its max. -/
theorem pyMean_bounds (l : List ℚ) (h : l ≠ []) :
    pyMin l ≤ pyMean l ∧ pyMean l ≤ pyMax l := by
  have hlen : 0 < (l.length : ℚ) := by exact_mod_cast List.length_pos.mpr h
  constructor
  · rw [pyMean, pySum, le_div_iff₀ hlen, mul_comm]
    exact mul_card_le_sum l _ fun x hx => pyMin_le_mem l x hx
  · rw [pyMean, pySum, div_le_iff₀ hlen, mul_comm]
    exact sum_le_mul_card l _ fun x hx => mem_le_pyMax l x hx

/-- An in-range index of the sorted copy yields an element of the
original list. -/
theorem sorted_getD_mem (l : List ℚ) (i : ℕ) (hi : i < l.length) :
    (List.insertionSort (· ≤ ·) l).getD i 0 ∈ l := by
  have hlen : (List.insertionSort (· ≤ ·) l).length = l.length :=
    (List.perm_insertionSort _ l).length_eq
  have hi' : i < (List.insertionSort (· ≤ ·) l).length := by rw [hlen]; exact hi
  rw [List.getD_eq_getElem _ _ hi']
  exact (List.perm_insertionSort _ l).mem_iff.mp (List.getElem_mem hi')

/-- The median of a non-empty list lies between its min and its max. -/
theorem pyMedian_bounds (l : List ℚ) (h : l ≠ []) :
    pyMin l ≤ pyMedian l ∧ pyMedian l ≤ pyMax l := by
  have hpos : 0 < l.length := List.length_pos.mpr h
  unfold pyMedian
  by_cases hodd : l.length % 2 = 1
  · rw [if_pos hodd]
    have hidx : l.length / 2 < l.length := Nat.div_lt_self hpos one_lt_two
    have hmem := sorted_getD_mem l (l.length / 2) hidx
    exact ⟨pyMin_le_mem _ _ hmem, mem_le_pyMax _ _ hmem⟩
  · rw [if_neg hodd]
    have hidx2 : l.length / 2 < l.length := Nat.div_lt_self hpos one_lt_two
    have hidx1 : l.length / 2 - 1 < l.length := lt_of_le_of_lt (Nat.sub_le _ _) hidx2
    have hm1 := sorted_getD_mem l (l.length / 2 - 1) hidx1
    have hm2 := sorted_getD_mem l (l.length / 2) hidx2
    constructor
    · have a1 := pyMin_le_mem _ _ hm1
      have a2 := pyMin_le_mem _ _ hm2
      linarith
    · have b1 := mem_le_pyMax _ _ hm1
      have b2 := mem_le_pyMax _ _ hm2
      linarith

/-- Shape of a ping summary: its fields are the summaries of the
non-empty extracted sample list. -/
theorem parse_ping_shape (text : String) (s : PingSummary)
    (h : parse_ping_output text = some s) :
    extract_latencies text ≠ [] ∧
      s.min = pyMin (extract_latencies text) ∧
      s.max = pyMax (extract_latencies text) ∧
      s.med = pyMedian (extract_latencies text) ∧
      s.avg = pyMean (extract_latencies text) := by
  unfold parse_ping_output at h
  by_cases he : (extract_latencies text).isEmpty = true
  · rw [if_pos he] at h; cases h
  · rw [if_neg he] at h
    refine ⟨by simpa using he, ?_⟩
    simp only [Option.some.injEq] at h
    rw [← h]
    exact ⟨rfl, rfl, rfl, rfl⟩

/-- C2: for every non-empty latency sample list, the summary computed by
`parse_ping_output` and per hop by `parse_traceroute_output` satisfies
min ≤ med ≤ max and min ≤ avg ≤ max, with avg the arithmetic mean and
med the `statistics.median`. -/
theorem c2_summary_bounds : ∀ text : String,
    (∀ s, parse_ping_output text = some s →
      s.min ≤ s.med ∧ s.med ≤ s.max ∧ s.min ≤ s.avg ∧ s.avg ≤ s.max)
  ∧ (∀ hops h, parse_traceroute_output text = .ok hops → h ∈ hops →
      h.min ≤ h.med ∧ h.med ≤ h.max ∧ h.min ≤ h.avg ∧ h.avg ≤ h.max) := by
  intro text
  constructor
  · intro s hs
    obtain ⟨hne, hmin, hmax, hmed, havg⟩ := parse_ping_shape text s hs
    obtain ⟨hmd1, hmd2⟩ := pyMedian_bounds _ hne
    obtain ⟨hmn1, hmn2⟩ := pyMean_bounds _ hne
    rw [hmin, hmax, hmed, havg]
    exact ⟨hmd1, hmd2, hmn1, hmn2⟩
  · intro hops h hok hmem
    obtain ⟨line, _, hline⟩ := mem_parseTrLines _ hops h hok hmem
    obtain ⟨toks, hne, _, hmin, hmax, hmed, havg⟩ := parseTrLine_ok_some line h hline
    obtain ⟨hmd1, hmd2⟩ := pyMedian_bounds _ hne
    obtain ⟨hmn1, hmn2⟩ := pyMean_bounds _ hne
    rw [hmin, hmax, hmed, havg]
    exact ⟨hmd1, hmd2, hmn1, hmn2⟩

/-- C2 witness: the theorem applied to a concrete ping output. -/
theorem c2_summary_bounds_witness :
    (⟨2, 2, 2, 2⟩ : PingSummary).min ≤ (⟨2, 2, 2, 2⟩ : PingSummary).med ∧
    (⟨2, 2, 2, 2⟩ : PingSummary).med ≤ (⟨2, 2, 2, 2⟩ : PingSummary).max ∧
    (⟨2, 2, 2, 2⟩ : PingSummary).min ≤ (⟨2, 2, 2, 2⟩ : PingSummary).avg ∧
    (⟨2, 2, 2, 2⟩ : PingSummary).avg ≤ (⟨2, 2, 2, 2⟩ : PingSummary).max :=
  (c2_summary_bounds "time=2.0").1 ⟨2, 2, 2, 2⟩
    (by norm_num +decide [parse_ping_output, extract_latencies, pyLines, pyLinesAux,
      lineLatencies, containsTok, startsWithL, pySplit, splitWsF, isWs, tokenLatency,
      timePat, splitOnEq, pyFloat?, splitExp, stripWs, signedMantissa?, mantissa?,
      allDigits, digitsVal, digitVal, pyMean, pySum, pyMedian, pyMin, pyMax,
      List.insertionSort, List.orderedInsert, List.filterMap_cons, List.filterMap_nil])

/-- Keeping first occurrences preserves membership. -/
theorem mem_firstDedup (x : ℤ) (xs : List ℤ) : x ∈ firstDedup xs ↔ x ∈ xs := by
  induction xs with
  | nil => simp [firstDedup]
  | cons y ys ih =>
    simp only [firstDedup, List.mem_cons, List.mem_filter]
    constructor
    · rintro (rfl | ⟨hx, _⟩)
      · exact Or.inl rfl
      · exact Or.inr (ih.mp hx)
    · rintro (rfl | hx)
      · exact Or.inl rfl
      · by_cases hxy : x = y
        · exact Or.inl hxy
        · exact Or.inr ⟨ih.mpr hx, by simpa using hxy⟩

/-- Appending one element extends the first-occurrence deduplication at
the end exactly when the element is new. -/
theorem firstDedup_append_singleton (xs : List ℤ) (x : ℤ) :
    firstDedup (xs ++ [x]) =
      if x ∈ xs then firstDedup xs else firstDedup xs ++ [x] := by
  induction xs with
  | nil => simp [firstDedup]
  | cons y ys ih =>
    rw [List.cons_append]
    rw [show firstDedup (y :: (ys ++ [x])) =
      y :: (firstDedup (ys ++ [x])).filter (fun z => z != y) from rfl]
    rw [ih]
    by_cases hmem : x ∈ ys
    · rw [if_pos hmem, if_pos (List.mem_cons_of_mem _ hmem)]
      rfl
    · rw [if_neg hmem]
      by_cases hxy : x = y
      · subst hxy
        rw [if_pos (List.mem_cons_self _ _), List.filter_append]
        simp [firstDedup]
      · rw [if_neg (by simp [hxy, hmem] : ¬x ∈ y :: ys), List.filter_append]
        simp only [List.filter_cons, List.filter_nil]
        rw [if_pos (by simpa using hxy)]
        rfl

/-- A hop number absent from the pooled records filters to nothing. -/
theorem filter_hop_eq_nil (all : List Hop) (n : ℤ) (h : ¬n ∈ all.map (·.hop)) :
    all.filter (fun x => x.hop == n) = [] := by
  rw [List.filter_eq_nil_iff]
  intro a ha hbeq
  exact h (List.mem_map.mpr ⟨a, ha, by simpa using hbeq⟩)

/-- A hop number present in the pooled records filters to something. -/
theorem filter_hop_ne_nil (all : List Hop) (n : ℤ) (h : n ∈ all.map (·.hop)) :
    all.filter (fun x => x.hop == n) ≠ [] := by
  intro h0
  rw [List.filter_eq_nil_iff] at h0
  obtain ⟨a, ha, hhop⟩ := List.mem_map.mp h
  exact h0 a ha (by simp [hhop])

/-- `find?` over mapped aggregation entries looks up the key. -/
theorem find?_map_entry (ks : List ℤ) (all : List Hop) (n : ℤ) (hn : n ∈ ks) :
    (ks.map (entryOf all)).find? (fun e => e.hop == n) = some (entryOf all n) := by
  induction ks with
  | nil => cases hn
  | cons k ks ih =>
    rw [List.map_cons]
    by_cases hk : k = n
    · subst hk
      rw [List.find?_cons_of_pos _ (by simp [entryOf])]
    · rw [List.find?_cons_of_neg _ (by simp [entryOf, hk])]
      refine ih ?_
      rcases List.mem_cons.mp hn with h | h
      · exact absurd h.symm hk
      · exact h

/-- The dictionary accumulated by `aggregate_stats` holds, for each hop
number in first-appearance order, exactly the pooled values and
first-record hosts of the processed hop records. -/
theorem foldl_addHop_eq (l : List Hop) :
    l.foldl addHop [] = (firstDedup (l.map (·.hop))).map (entryOf l) := by
  induction l using List.reverseRecOn with
  | nil => rfl
  | append_singleton l h ih =>
    rw [List.foldl_append, List.foldl_cons, List.foldl_nil, ih, List.map_append,
        List.map_cons, List.map_nil, firstDedup_append_singleton]
    by_cases hmem : h.hop ∈ l.map (·.hop)
    · rw [if_pos hmem]
      unfold addHop
      have hany : ((firstDedup (l.map (·.hop))).map (entryOf l)).any
          (fun e => e.hop == h.hop) = true := by
        rw [List.any_eq_true]
        exact ⟨entryOf l h.hop,
          List.mem_map.mpr ⟨h.hop, (mem_firstDedup _ _).mpr hmem, rfl⟩,
          by simp [entryOf]⟩
      rw [if_pos hany, List.map_map]
      apply List.map_congr_left
      intro n hn
      simp only [Function.comp_apply]
      by_cases hnh : n = h.hop
      · rw [if_pos (show (entryOf l n).hop = h.hop from hnh)]
        have hfil : (l ++ [h]).filter (fun x => x.hop == n) =
            l.filter (fun x => x.hop == n) ++ [h] := by
          rw [List.filter_append]
          simp [hnh.symm]
        have hmem' : n ∈ l.map (·.hop) := hnh ▸ hmem
        obtain ⟨g0, gs, hg⟩ := List.exists_cons_of_ne_nil (filter_hop_ne_nil l n hmem')
        simp only [entryOf, hfil, hg, List.map_append, List.map_cons, List.map_nil,
          List.cons_append, List.head?_cons, Option.map_some', Option.getD_some]
      · have hfil : (l ++ [h]).filter (fun x => x.hop == n) =
            l.filter (fun x => x.hop == n) := by
          rw [List.filter_append]
          have hb : (h.hop == n) = false := by
            simp only [beq_eq_false_iff_ne, ne_eq]
            exact fun he => hnh he.symm
          simp [hb]
        rw [if_neg (by simpa [entryOf] using hnh)]
        simp only [entryOf, hfil]
    · rw [if_neg hmem]
      unfold addHop
      have hany : ((firstDedup (l.map (·.hop))).map (entryOf l)).any
          (fun e => e.hop == h.hop) = false := by
        rw [List.any_eq_false]
        intro e he
        obtain ⟨m, hm, rfl⟩ := List.mem_map.mp he
        have hm' : m ∈ l.map (·.hop) := (mem_firstDedup _ _).mp hm
        simp only [entryOf, beq_iff_eq]
        exact fun hcontra => hmem (hcontra ▸ hm')
      rw [if_neg (by simp [hany]), List.map_append, List.map_append, List.map_map]
      congr 1
      · apply List.map_congr_left
        intro n hn
        simp only [Function.comp_apply]
        have hn' : n ∈ l.map (·.hop) := (mem_firstDedup _ _).mp hn
        have hnh : ¬n = h.hop := fun he => hmem (he ▸ hn')
        have hfil : (l ++ [h]).filter (fun x => x.hop == n) =
            l.filter (fun x => x.hop == n) := by
          rw [List.filter_append]
          have hb : (h.hop == n) = false := by
            simp only [beq_eq_false_iff_ne, ne_eq]
            exact fun he => hnh he.symm
          simp [hb]
        rw [if_neg (by simpa [entryOf] using hnh)]
        simp only [entryOf, hfil]
      · have hfil : (l ++ [h]).filter (fun x => x.hop == h.hop) = [h] := by
          rw [List.filter_append, filter_hop_eq_nil l h.hop hmem]
          simp
        simp only [List.map_cons, List.map_nil, if_pos rfl, entryOf, hfil,
          List.head?_cons, Option.map_some', Option.getD_some]
        rfl

/-- The hop numbers of the records built from a key list form a sublist
of that key list. -/
theorem filterMap_hop_sublist (ks : List ℤ) (f : ℤ → Option Hop)
    (hf : ∀ n h, f n = some h → h.hop = n) :
    ((ks.filterMap f).map (·.hop)).Sublist ks := by
  induction ks with
  | nil => simp
  | cons k ks ih =>
    rw [List.filterMap_cons]
    cases hk : f k with
    | none => exact ih.cons k
    | some h =>
      rw [List.map_cons, hf k h hk]
      exact ih.cons₂ k

/-- C3: `aggregate_stats` groups hop records by hop number, pools the
four summary values over exactly the runs that reported each hop number
(with `avg` the rounded mean of pooled averages, `max`/`med`/`min` the
max/median/min of the corresponding pooled lists), copies `hosts`
verbatim from the first record at that hop number, and emits the
records sorted ascending by hop number — it coincides with the
specification-level description `aggregateSpec`. -/
theorem c3_aggregate_refines_spec : ∀ runs : List (List Hop),
    aggregate_stats runs = aggregateSpec runs ∧
    ((aggregate_stats runs).map (·.hop)).Sorted (· ≤ ·) := by
  intro runs
  have hbuild : buildAgg runs =
      (firstDedup (runs.flatten.map (·.hop))).map (entryOf runs.flatten) :=
    foldl_addHop_eq _
  have hkeys : (buildAgg runs).map (·.hop) = firstDedup (runs.flatten.map (·.hop)) := by
    rw [hbuild, List.map_map]
    have hcomp : ((fun (e : AggEntry) => e.hop) ∘ entryOf runs.flatten) =
        fun n => n := funext fun n => rfl
    rw [hcomp]
    exact List.map_id' _
  have hmain : aggregate_stats runs = aggregateSpec runs := by
    unfold aggregate_stats aggregateSpec
    rw [hkeys, hbuild]
    apply List.filterMap_congr
    intro n hn
    have hn1 : n ∈ firstDedup (runs.flatten.map (·.hop)) :=
      (List.perm_insertionSort _ _).mem_iff.mp hn
    have hn2 : n ∈ runs.flatten.map (·.hop) := (mem_firstDedup _ _).mp hn1
    rw [find?_map_entry _ _ _ hn1]
    obtain ⟨g0, gs, hg⟩ := List.exists_cons_of_ne_nil (filter_hop_ne_nil _ _ hn2)
    rw [hg, Option.map_some']
    simp only [aggHopOf, entryOf, hg, List.head?_cons, Option.map_some', Option.getD_some]
  refine ⟨hmain, ?_⟩
  rw [hmain]
  unfold aggregateSpec
  refine List.Pairwise.sublist (filterMap_hop_sublist _ _ ?_) (List.sorted_insertionSort _ _)
  intro n h hfn
  cases hfil : runs.flatten.filter (fun x => x.hop == n) with
  | nil => rw [hfil] at hfn; cases hfn
  | cons g0 gs => rw [hfil] at hfn; cases hfn; rfl

/-- C10: `aggregate_stats` is total — on the empty run list it returns
the empty list — and every pooled value list in the accumulated
dictionary is non-empty (an entry is created only when a record
contributes its values), so the per-hop mean never divides by zero. -/
theorem c10_aggregate_total :
    aggregate_stats [] = [] ∧
    ∀ (runs : List (List Hop)) (e : AggEntry), e ∈ buildAgg runs →
      e.minL ≠ [] ∧ e.maxL ≠ [] ∧ e.avgL ≠ [] ∧ e.medL ≠ [] := by
  refine ⟨rfl, ?_⟩
  intro runs e he
  rw [buildAgg, foldl_addHop_eq] at he
  obtain ⟨n, hn, rfl⟩ := List.mem_map.mp he
  have hn2 : n ∈ runs.flatten.map (·.hop) := (mem_firstDedup _ _).mp hn
  have hne := filter_hop_ne_nil _ _ hn2
  have hmap : ∀ f : Hop → ℚ,
      (runs.flatten.filter (fun x => x.hop == n)).map f ≠ [] :=
    fun f hm => hne (List.map_eq_nil_iff.mp hm)
  exact ⟨hmap _, hmap _, hmap _, hmap _⟩

/-- C10 witness: the theorem applied to one concrete run. -/
theorem c10_witness :
    (⟨1, [], [1], [1], [1], [1]⟩ : AggEntry).minL ≠ [] ∧
    (⟨1, [], [1], [1], [1], [1]⟩ : AggEntry).maxL ≠ [] ∧
    (⟨1, [], [1], [1], [1], [1]⟩ : AggEntry).avgL ≠ [] ∧
    (⟨1, [], [1], [1], [1], [1]⟩ : AggEntry).medL ≠ [] :=
  c10_aggregate_total.2 [[⟨1, 1, [], 1, 1, 1⟩]] ⟨1, [], [1], [1], [1], [1]⟩ (by decide)
